import Mathlib

/-!
Verification development for File-Structure-Sync (`run.py`).

The program is embedded shallowly:

* file contents are lists of bytes (`List Nat`);
* paths are lists of components (`List String`), already absolute and
  normalised, so `os.path.abspath` is the identity and path equality is
  component-list equality;
* the md5 digest itself is an abstract parameter `digest`; what the code
  determines exactly is the byte stream fed to the hasher, which we model
  precisely (`fastMd5Data`);
* Python dictionaries are ordered association lists with
  overwrite-in-place assignment (`insertA`);
* `os.walk` (topdown) file enumeration order is modelled by `walkOrder`:
  a directory's own files come before any file inside its
  subdirectories, as the topdown walk forces, with sibling entries in
  name order — one realisable scandir order;
* I/O failures cannot occur on the in-memory filesystem, so
  `get_fast_md5` never returns `None` in the model.
-/

namespace FSSync

/-! ### The fingerprint function (`get_fast_md5`, run.py lines 8-34) -/

/-- One MiB, the `sample_size` constant of `get_fast_md5`. -/
def sampleSize : Nat := 1024 * 1024

/-- Bytes of the decimal representation of `n`, as produced by
`str(n).encode()` in Python. -/
def decimalBytes (n : Nat) : List Nat := (toString n).toList.map Char.toNat

/-- Reading `f.read(n)` on a file with content `c` after `f.seek(pos)`:
up to `n` bytes starting at offset `pos`. -/
def fread (c : List Nat) (pos n : Nat) : List Nat := (c.drop pos).take n

/-- The byte stream fed to the md5 hasher by `get_fast_md5`
(run.py lines 13-30), translated from the source: when the file size is at
most `3 * sample_size` the whole content is hashed; otherwise the code
reads 1 MiB from the start, seeks to `file_size // 2` and reads 1 MiB,
seeks to `file_size - sample_size` and reads 1 MiB, and finally feeds the
decimal string of the file size. -/
def fastMd5Data (c : List Nat) : List Nat :=
  let file_size := c.length
  if file_size ≤ sampleSize * 3 then
    c
  else
    fread c 0 sampleSize ++
      fread c (file_size / 2) sampleSize ++
        fread c (file_size - sampleSize) sampleSize ++
          decimalBytes file_size

/-- The fingerprint input as spec.md section 4.1 words it: with S = 1 MiB,
for size ≤ 3·S the entire file content, otherwise the first S bytes,
then S bytes read starting at offset size/2, then S bytes read starting
at offset size−S, then the decimal string of the file size. -/
def specFingerprintData (c : List Nat) : List Nat :=
  let S := 1024 * 1024
  if c.length ≤ 3 * S then
    c
  else
    c.take S ++
      ((c.drop (c.length / 2)).take S ++
        ((c.drop (c.length - S)).take S ++ decimalBytes c.length))

/-- The fingerprint of a content: the abstract digest applied to the
sampled byte stream.  `digest` stands for the md5 hexdigest. -/
def fingerprint (digest : List Nat → List Nat) (c : List Nat) : List Nat :=
  digest (fastMd5Data c)

/-- Claim C1: for every readable file, the fingerprint function hashes the
entire content when the size is at most 3 MiB, and otherwise hashes the
first 1 MiB, then 1 MiB read from offset size/2, then 1 MiB read from
offset size−1MiB, then the decimal string of the file size. -/
theorem fastMd5_matches_spec (c : List Nat) :
    fastMd5Data c = specFingerprintData c := by
  simp [fastMd5Data, specFingerprintData, fread, sampleSize, Nat.mul_comm]

/-- Counterexample to claim C8: a zero-byte file takes the small-file
branch of `get_fast_md5`, which hashes the raw content without ever
appending the size string, so the hashed stream is not
"empty content plus the size string 0". -/
theorem zero_byte_data_has_no_size_string :
    fastMd5Data [] ≠ [] ++ decimalBytes 0 := by
  decide

/-- Claim C8 (amended): the fingerprint of a zero-byte file is the digest
of its empty content alone (the size string is appended only in the
large-file branch), and computing it is well defined (total), so it does
not crash. -/
theorem zero_byte_fingerprint_empty_data : fastMd5Data [] = [] := by
  decide

/-! ### Ordered association lists: the Python `dict` model -/

/-- Python dictionary assignment `d[k] = v`: update in place when the key
is present (keeping its position), append otherwise. -/
def insertA {K V : Type} [DecidableEq K] (k : K) (v : V) :
    List (K × V) → List (K × V)
  | [] => [(k, v)]
  | (k', v') :: rest =>
    if k' = k then (k, v) :: rest else (k', v') :: insertA k v rest

/-- Python dictionary lookup: `d[k]` when the key is present. -/
def lookupA {K V : Type} [DecidableEq K] (k : K) :
    List (K × V) → Option V
  | [] => none
  | (k', v') :: rest => if k' = k then some v' else lookupA k rest

/-- The keys of an association list, in order. -/
def keysA {K V : Type} (m : List (K × V)) : List K := m.map Prod.fst

/-- Building a dict by consecutive assignments, starting from `{}`. -/
def foldInsert {K V : Type} [DecidableEq K] (l : List (K × V)) :
    List (K × V) :=
  l.foldl (fun m kv => insertA kv.1 kv.2 m) []

section AssocLemmas

variable {K V : Type} [DecidableEq K]

theorem lookupA_insertA_self (k : K) (v : V) (m : List (K × V)) :
    lookupA k (insertA k v m) = some v := by
  induction m with
  | nil => simp [insertA, lookupA]
  | cons kv rest ih =>
    obtain ⟨k', v'⟩ := kv
    by_cases h : k' = k <;> simp [insertA, lookupA, h, ih]

theorem lookupA_insertA_ne (k k' : K) (v : V) (m : List (K × V))
    (h : k' ≠ k) : lookupA k' (insertA k v m) = lookupA k' m := by
  induction m with
  | nil => simp [insertA, lookupA, Ne.symm h]
  | cons kv rest ih =>
    obtain ⟨a, b⟩ := kv
    by_cases ha : a = k
    · subst ha
      simp [insertA, lookupA, Ne.symm h]
    · by_cases hb : a = k' <;>
        simp [insertA, lookupA, ha, hb, ih, h, Ne.symm h]

theorem mem_insertA {k : K} {v : V} {m : List (K × V)} {x : K × V} :
    x ∈ insertA k v m → x = (k, v) ∨ x ∈ m := by
  induction m with
  | nil => intro h; simpa [insertA] using h
  | cons kv rest ih =>
    obtain ⟨a, b⟩ := kv
    intro h
    by_cases ha : a = k
    · subst ha
      rw [show insertA a v ((a, b) :: rest) = (a, v) :: rest by
        simp [insertA]] at h
      rcases List.mem_cons.mp h with h | h
      · exact Or.inl h
      · exact Or.inr (List.mem_cons_of_mem _ h)
    · simp only [insertA, if_neg ha, List.mem_cons] at h
      rcases h with h | h
      · exact Or.inr (by rw [h]; exact List.mem_cons_self _ _)
      · rcases ih h with h' | h'
        · exact Or.inl h'
        · exact Or.inr (List.mem_cons_of_mem _ h')

theorem keysA_insertA (k : K) (v : V) (m : List (K × V)) :
    keysA (insertA k v m) =
      if k ∈ keysA m then keysA m else keysA m ++ [k] := by
  induction m with
  | nil => simp [insertA, keysA]
  | cons kv rest ih =>
    obtain ⟨a, b⟩ := kv
    by_cases ha : a = k
    · subst ha
      simp [insertA, keysA]
    · simp only [insertA, if_neg ha, keysA, List.map_cons] at ih ⊢
      rw [ih]
      by_cases hk : k ∈ List.map Prod.fst rest <;>
        simp [hk, Ne.symm ha]

theorem mem_keysA_insertA {k : K} {v : V} {m : List (K × V)} {a : K} :
    a ∈ keysA (insertA k v m) ↔ a = k ∨ a ∈ keysA m := by
  rw [keysA_insertA]
  by_cases hk : k ∈ keysA m
  · simp only [if_pos hk]
    constructor
    · exact Or.inr
    · rintro (rfl | h)
      · exact hk
      · exact h
  · simp [if_neg hk]
    tauto

theorem insertA_of_not_mem_keysA {k : K} {v : V} {m : List (K × V)} :
    k ∉ keysA m → insertA k v m = m ++ [(k, v)] := by
  induction m with
  | nil => intro _; simp [insertA]
  | cons kv rest ih =>
    obtain ⟨a, b⟩ := kv
    intro h
    simp only [keysA, List.map_cons, List.mem_cons, not_or] at h
    simp only [insertA, if_neg (Ne.symm h.1), List.cons_append,
      List.cons.injEq, true_and]
    exact ih h.2

theorem keysA_nodup_insertA {k : K} {v : V} {m : List (K × V)} :
    (keysA m).Nodup → (keysA (insertA k v m)).Nodup := by
  intro h
  rw [keysA_insertA]
  by_cases hk : k ∈ keysA m
  · simpa [hk] using h
  · rw [if_neg hk]
    exact List.Nodup.append h (List.nodup_singleton _)
      (fun x hx hxk => hk ((List.mem_singleton.mp hxk) ▸ hx))

theorem mem_of_lookupA {k : K} {v : V} {m : List (K × V)} :
    lookupA k m = some v → (k, v) ∈ m := by
  induction m with
  | nil => intro h; simp [lookupA] at h
  | cons kv rest ih =>
    obtain ⟨a, b⟩ := kv
    intro h
    by_cases ha : a = k
    · subst ha
      simp [lookupA] at h
      subst h
      exact List.mem_cons_self _ _
    · simp only [lookupA, if_neg ha] at h
      exact List.mem_cons_of_mem _ (ih h)

theorem lookupA_isSome_iff {k : K} {m : List (K × V)} :
    (lookupA k m).isSome ↔ k ∈ keysA m := by
  induction m with
  | nil => simp [lookupA, keysA]
  | cons kv rest ih =>
    obtain ⟨a, b⟩ := kv
    by_cases ha : a = k
    · subst ha
      simp [lookupA, keysA]
    · simp [lookupA, keysA, ha, Ne.symm ha, ih]

theorem lookupA_of_mem_nodup {k : K} {v : V} {m : List (K × V)} :
    (k, v) ∈ m → (keysA m).Nodup → lookupA k m = some v := by
  induction m with
  | nil => intro h _; simp at h
  | cons kv rest ih =>
    obtain ⟨a, b⟩ := kv
    intro hmem hnd
    simp only [keysA, List.map_cons, List.nodup_cons] at hnd
    rcases List.mem_cons.mp hmem with h | h
    · injection h with h1 h2
      subst h1; subst h2
      simp [lookupA]
    · by_cases ha : a = k
      · subst ha
        exact absurd (List.mem_map_of_mem Prod.fst h) hnd.1
      · simp only [lookupA, if_neg ha]
        exact ih h hnd.2

theorem foldl_insert_mem_aux (l : List (K × V)) :
    ∀ (acc : List (K × V)) (x : K × V),
      x ∈ l.foldl (fun m kv => insertA kv.1 kv.2 m) acc →
        x ∈ l ∨ x ∈ acc := by
  induction l with
  | nil => intro acc x h; exact Or.inr (by simpa using h)
  | cons kv rest ih =>
    intro acc x h
    simp only [List.foldl_cons] at h
    rcases ih _ _ h with h' | h'
    · exact Or.inl (List.mem_cons_of_mem _ h')
    · rcases mem_insertA h' with h'' | h''
      · exact Or.inl (by rw [h'']; exact List.mem_cons_self _ _)
      · exact Or.inr h''

theorem mem_foldInsert {l : List (K × V)} {x : K × V}
    (h : x ∈ foldInsert l) : x ∈ l := by
  rcases foldl_insert_mem_aux l [] x h with h' | h'
  · exact h'
  · simp at h'

theorem foldl_insert_keys_aux (l : List (K × V)) :
    ∀ (acc : List (K × V)) (k : K),
      k ∈ keysA (l.foldl (fun m kv => insertA kv.1 kv.2 m) acc) ↔
        k ∈ keysA l ∨ k ∈ keysA acc := by
  induction l with
  | nil => intro acc k; simp [keysA]
  | cons kv rest ih =>
    intro acc k
    simp only [List.foldl_cons]
    rw [ih, mem_keysA_insertA]
    simp only [keysA, List.map_cons, List.mem_cons]
    tauto

theorem mem_keysA_foldInsert {l : List (K × V)} {k : K} :
    k ∈ keysA (foldInsert l) ↔ k ∈ keysA l := by
  simpa [keysA] using foldl_insert_keys_aux l [] k

theorem foldl_insert_lookup_aux (l : List (K × V)) (k : K) (v : V) :
    ∀ (acc : List (K × V)),
      (lookupA k acc = some v ∨ (k, v) ∈ l) →
      (∀ x ∈ l, x.1 = k → x.2 = v) →
      lookupA k (l.foldl (fun m kv => insertA kv.1 kv.2 m) acc) = some v := by
  induction l with
  | nil =>
    intro acc hstart _
    rcases hstart with h | h
    · simpa using h
    · simp at h
  | cons kv rest ih =>
    intro acc hstart huq
    obtain ⟨a, b⟩ := kv
    simp only [List.foldl_cons]
    by_cases ha : a = k
    · subst ha
      have hb : b = v := huq (a, b) (List.mem_cons_self _ _) rfl
      subst hb
      exact ih _ (Or.inl (lookupA_insertA_self _ _ _))
        (fun x hx => huq x (List.mem_cons_of_mem _ hx))
    · refine ih _ ?_ (fun x hx => huq x (List.mem_cons_of_mem _ hx))
      rcases hstart with h | h
      · exact Or.inl ((lookupA_insertA_ne _ _ _ _ (fun e => ha e.symm)).trans h)
      · rcases List.mem_cons.mp h with h' | h'
        · exact absurd (congrArg Prod.fst h').symm ha
        · exact Or.inr h'

theorem lookupA_foldInsert_unique {l : List (K × V)} {k : K} {v : V}
    (hmem : (k, v) ∈ l) (huniq : ∀ x ∈ l, x.1 = k → x.2 = v) :
    lookupA k (foldInsert l) = some v :=
  foldl_insert_lookup_aux l k v [] (Or.inr hmem) huniq

theorem foldl_insert_nodup_aux (l : List (K × V)) :
    ∀ (acc : List (K × V)), (keysA acc).Nodup →
      (keysA (l.foldl (fun m kv => insertA kv.1 kv.2 m) acc)).Nodup := by
  induction l with
  | nil => intro acc h; simpa using h
  | cons kv rest ih =>
    intro acc h
    simp only [List.foldl_cons]
    exact ih _ (keysA_nodup_insertA h)

theorem keysA_nodup_foldInsert {l : List (K × V)} :
    (keysA (foldInsert l)).Nodup :=
  foldl_insert_nodup_aux l [] (by simp [keysA])

end AssocLemmas

/-! ### The source scanner (`scan_source`, run.py lines 36-65)

A source tree is a list of files, each given by its path relative to the
scanned root (as produced by `os.path.relpath`, split into components)
and its content.  The list order is the `os.walk` enumeration order.
The `file` variable of the walk loop is the base name, i.e. the last
path component. -/

/-- A file of the scanned tree: root-relative path components, content. -/
structure SrcFile where
  rel : List String
  content : List Nat
deriving DecidableEq

/-- The base name of a path: its last component (the `file` variable of
the `os.walk` loop body). -/
def baseName (p : List String) : String := p.getLastD ""

/-- run.py line 47: `file.startswith('.') or file.lower() == 'thumbs.db'`,
expressed over the character list of the name (`str.lower` is modelled by
the per-character case mapping, which agrees with Python on the ASCII
names the check compares against). -/
def excludedName (s : String) : Bool :=
  (match s.toList with
   | [] => false
   | c :: _ => c = '.') ||
    s.toList.map Char.toLower == "thumbs.db".toList

/-- The mapping built by `scan_source` (run.py lines 45-58): walk all
files in order, skip excluded names, fingerprint the rest and assign
`mapping[f_hash] = rel_path` (`get_fast_md5` cannot fail on the
in-memory tree, so the `if f_hash:` guard is always taken). -/
def scanMapping (digest : List Nat → List Nat) (files : List SrcFile) :
    List (List Nat × List String) :=
  files.foldl
    (fun m f =>
      if excludedName (baseName f.rel) then m
      else insertA (fingerprint digest f.content) f.rel m)
    []

theorem scanMapping_foldl_aux (digest : List Nat → List Nat)
    (files : List SrcFile) :
    ∀ acc,
      files.foldl
        (fun m f =>
          if excludedName (baseName f.rel) then m
          else insertA (fingerprint digest f.content) f.rel m) acc =
      ((files.filter (fun f => !excludedName (baseName f.rel))).map
        (fun f => (fingerprint digest f.content, f.rel))).foldl
        (fun m kv => insertA kv.1 kv.2 m) acc := by
  induction files with
  | nil => intro acc; simp
  | cons f rest ih =>
    intro acc
    by_cases h : excludedName (baseName f.rel) <;>
      simp [List.filter_cons, h, ih]

theorem scanMapping_eq_foldInsert (digest : List Nat → List Nat)
    (files : List SrcFile) :
    scanMapping digest files =
      foldInsert
        ((files.filter (fun f => !excludedName (baseName f.rel))).map
          (fun f => (fingerprint digest f.content, f.rel))) :=
  scanMapping_foldl_aux digest files []

/-- Claim C6: the scanner drops exactly the files whose base name starts
with a dot or case-insensitively equals thumbs.db — regardless of
content — and fingerprints and inserts every other file: the scanned
mapping is the insertion-fold of precisely the non-excluded files. -/
theorem scan_excludes_exactly_noise (digest : List Nat → List Nat)
    (files : List SrcFile) :
    scanMapping digest files =
      foldInsert
        ((files.filter (fun f => !excludedName (baseName f.rel))).map
          (fun f => (fingerprint digest f.content, f.rel))) :=
  scanMapping_eq_foldInsert digest files

/-- Claim C10: the exclusion test looks only at a file's own base name,
never at ancestor directory names, so a non-excluded file is
fingerprinted and indexed even when it lies inside hidden
(dot-prefixed) directories: its fingerprint is a key of the scanned
mapping whatever its leading path components are. -/
theorem scan_includes_files_in_hidden_dirs (digest : List Nat → List Nat)
    (files : List SrcFile) (f : SrcFile) (hmem : f ∈ files)
    (hname : excludedName (baseName f.rel) = false) :
    fingerprint digest f.content ∈ keysA (scanMapping digest files) := by
  rw [scanMapping_eq_foldInsert, mem_keysA_foldInsert]
  have hf : f ∈ files.filter (fun f => !excludedName (baseName f.rel)) :=
    List.mem_filter.mpr ⟨hmem, by simp [hname]⟩
  simp only [keysA, List.map_map]
  exact List.mem_map.mpr ⟨f, hf, rfl⟩

/-- Witness for claim C10: a file inside the hidden directory
`.hidden/` is still fingerprinted by the scan. -/
theorem scan_includes_files_in_hidden_dirs_witness :
    fingerprint id [1] ∈
      keysA (scanMapping id [⟨[".hidden", "doc.txt"], [1]⟩]) :=
  scan_includes_files_in_hidden_dirs id [⟨[".hidden", "doc.txt"], [1]⟩]
    ⟨[".hidden", "doc.txt"], [1]⟩ (List.mem_singleton.mpr rfl) (by decide)

/-! ### The reconciler (`sync_target`, run.py lines 67-118)

The target filesystem is a table of files (path, content) plus the set
of directories existing under the target root.  Paths are relative to
the target root and canonical, so `os.path.abspath` comparison is plain
equality of component lists. -/

/-- A canonical path, as a list of components.  The target root is `[]`. -/
abbrev Path := List String

/-- Lexicographic comparison of strings by character code. -/
def strLt : List Char → List Char → Bool
  | [], [] => false
  | [], _ :: _ => true
  | _ :: _, [] => false
  | a :: as, b :: bs =>
    if a = b then strLt as bs else decide (a.toNat < b.toNat)

/-- One realisable `os.walk(topdown=True)` file enumeration order on
root-relative paths: a directory's own files are yielded before any
file inside any of its subdirectories (forced by the walk structure),
and sibling entries are visited in name order (one realisable scandir
order).  Concretely, at the first differing component: a path with one
component left is a file of the common directory and comes before a
deeper path; two files or two subtrees of the same directory are
ordered by entry name. -/
def pathLe : Path → Path → Bool
  | [], _ => true
  | _ :: _, [] => false
  | a :: as, b :: bs =>
    if a = b then pathLe as bs
    else
      match as, bs with
      | [], [] => strLt a.toList b.toList
      | [], _ :: _ => true
      | _ :: _, [] => false
      | _ :: _, _ :: _ => strLt a.toList b.toList

/-- Insertion step of the sort giving the walk order. -/
def insertSorted (f : Path × List Nat) :
    List (Path × List Nat) → List (Path × List Nat)
  | [] => [f]
  | g :: gs =>
    if pathLe f.1 g.1 then f :: g :: gs else g :: insertSorted f gs

/-- The files of the target tree in `os.walk` enumeration order. -/
def walkOrder (files : List (Path × List Nat)) :
    List (Path × List Nat) :=
  files.foldr insertSorted []

/-- The target filesystem state: the file table and the directories
existing under the target root (the root itself, `[]`, is not listed). -/
structure FS where
  files : List (Path × List Nat)
  dirs : List Path
deriving DecidableEq

/-- The `target_index` construction (run.py lines 81-87): walk the target,
fingerprint every file — no name filtering — and assign
`target_index[f_hash] = full_path`, a later file overwriting an earlier
one with the same fingerprint. -/
def buildIndex (digest : List Nat → List Nat)
    (files : List (Path × List Nat)) : List (List Nat × Path) :=
  (walkOrder files).foldl
    (fun idx pc => insertA (fingerprint digest pc.2) pc.1 idx) []

/-- All nonempty prefixes of `d`: the directories that
`os.makedirs(d, exist_ok=True)` guarantees to exist afterwards. -/
def prefixesOf (d : Path) : List Path :=
  (List.range d.length).map (fun i => d.take (i + 1))

/-- Model of `os.makedirs(d, exist_ok=True)`: append the missing ancestors of
`d` (and `d` itself) to the directory set. -/
def mkdirs (ds : List Path) (d : Path) : List Path :=
  ds ++ (prefixesOf d).filter (fun q => decide (q ∉ ds))

/-- Model of `shutil.move(old, new)` on the file table: remove the entry at
`old` and write its content at `new` (a same-volume rename, overwriting
any file already at `new`).  run.py would raise if no file existed at
`old`; the move loop never reaches that case, and the model leaves the
table unchanged there. -/
def moveFile (old new : Path) (files : List (Path × List Nat)) :
    List (Path × List Nat) :=
  match lookupA old files with
  | some c => insertA new c (files.filter (fun pc => decide (pc.1 ≠ old)))
  | none => files

/-- One executed move (run.py lines 103-104): `os.makedirs` on the
destination's parent, then `shutil.move`. -/
def applyMove (old new : Path) (fs : FS) : FS :=
  { files := moveFile old new fs.files
    dirs := mkdirs fs.dirs new.dropLast }

/-- The matching and relocation loop (run.py lines 93-107): iterate the
mapping in order; skip fingerprints absent from the index; skip entries
whose current path already equals the destination; otherwise report the
move — and perform it unless this is a dry run.  Returns the reported
move list and the final state. -/
def runMoves (dry : Bool) (index : List (List Nat × Path)) :
    List (List Nat × Path) → FS → List (Path × Path) × FS
  | [], fs => ([], fs)
  | (h, rel) :: rest, fs =>
    match lookupA h index with
    | none => runMoves dry index rest fs
    | some old =>
      if old = rel then runMoves dry index rest fs
      else
        let fs' := if dry then fs else applyMove old rel fs
        let r := runMoves dry index rest fs'
        ((old, rel) :: r.1, r.2)

/-- Whether `q` is a direct child path of `d`. -/
def isChildOf (d q : Path) : Bool :=
  decide (q ≠ []) && decide (q.dropLast = d)

/-- Emptiness check `os.listdir(d) == []` in the state (files, ds): no file and no
directory is a direct child of `d`. -/
def dirEmpty (files : List (Path × List Nat)) (ds : List Path)
    (d : Path) : Bool :=
  files.all (fun pc => !isChildOf d pc.1) &&
    ds.all (fun q => !isChildOf d q)

/-- The cleanup pass (run.py lines 110-116): visit the directories in
the given order, removing each one that is empty at its turn. -/
def cleanupPass (files : List (Path × List Nat)) :
    List Path → List Path → List Path
  | [], ds => ds
  | d :: order, ds =>
    if dirEmpty files ds d then
      cleanupPass files order (ds.filter (fun q => decide (q ≠ d)))
    else
      cleanupPass files order ds

/-- Insertion by depth, deepest first. -/
def insertByDepth (d : Path) : List Path → List Path
  | [] => [d]
  | e :: es =>
    if e.length ≤ d.length then d :: e :: es else e :: insertByDepth d es

/-- A realisation of the `os.walk(target_dir, topdown=False)` directory
visiting order: deepest directories first, so every directory is
visited after all of its descendants. -/
def deepFirst (ds : List Path) : List Path := ds.foldr insertByDepth []

/-- The outcome of `sync_target`: final state, reported moves, and
whether the missing-mapping-file error was reported. -/
structure SyncResult where
  fs : FS
  moves : List (Path × Path)
  mappingMissing : Bool
deriving DecidableEq

/-- Model of `sync_target` (run.py lines 67-118).  `mapOpt` is the mapping file:
`none` when the file does not exist, otherwise the loaded
fingerprint-to-relative-path table in its JSON (insertion) order.  When
the file is missing, the error is reported and the function returns
before indexing; otherwise the target is indexed, the matching loop
runs, and — only when not a dry run — empty directories are removed
bottom-up. -/
def syncTarget (digest : List Nat → List Nat)
    (mapOpt : Option (List (List Nat × Path))) (fs : FS) (dry : Bool) :
    SyncResult :=
  match mapOpt with
  | none => ⟨fs, [], true⟩
  | some mapping =>
    let index := buildIndex digest fs.files
    let r := runMoves dry index mapping fs
    let finalFS :=
      if dry then r.2
      else
        { r.2 with
          dirs := cleanupPass r.2.files (deepFirst r.2.dirs) r.2.dirs }
    ⟨finalFS, r.1, false⟩

/-- Claim C7: when the mapping file does not exist, sync reports the
missing file and returns before target indexing begins: the filesystem
state is returned unchanged, no move is reported, for any digest, any
state and either run mode. -/
theorem missing_mapping_aborts (digest : List Nat → List Nat) (fs : FS)
    (dry : Bool) :
    syncTarget digest none fs dry = ⟨fs, [], true⟩ := rfl

/-- The moves reported by the loop do not depend on the dry-run flag or
on the evolving filesystem state: the loop decides from the index (built
before any move) and path comparison alone. -/
def plannedMoves (index : List (List Nat × Path)) :
    List (List Nat × Path) → List (Path × Path)
  | [] => []
  | (h, rel) :: rest =>
    match lookupA h index with
    | none => plannedMoves index rest
    | some old =>
      if old = rel then plannedMoves index rest
      else (old, rel) :: plannedMoves index rest

theorem runMoves_fst (dry : Bool) (index : List (List Nat × Path)) :
    ∀ (l : List (List Nat × Path)) (fs : FS),
      (runMoves dry index l fs).1 = plannedMoves index l := by
  intro l
  induction l with
  | nil => intro fs; rfl
  | cons hr rest ih =>
    intro fs
    obtain ⟨h, rel⟩ := hr
    simp only [runMoves, plannedMoves]
    cases lookupA h index with
    | none => exact ih fs
    | some old =>
      by_cases he : old = rel
      · simp only [if_pos he]
        exact ih fs
      · simp only [if_neg he]
        rw [ih]

theorem runMoves_dry_state (index : List (List Nat × Path)) :
    ∀ (l : List (List Nat × Path)) (fs : FS),
      (runMoves true index l fs).2 = fs := by
  intro l
  induction l with
  | nil => intro fs; rfl
  | cons hr rest ih =>
    intro fs
    obtain ⟨h, rel⟩ := hr
    simp only [runMoves]
    cases lookupA h index with
    | none => exact ih fs
    | some old =>
      by_cases he : old = rel
      · simp only [if_pos he]
        exact ih fs
      · simp only [if_neg he, if_pos rfl]
        exact ih fs

/-- Claim C3: a dry-run sync leaves the filesystem state unchanged — no
file moved, no directory created or removed — and the moves it reports
are exactly the moves a non-dry-run sync would perform from the same
initial state. -/
theorem dry_run_no_side_effects (digest : List Nat → List Nat)
    (mapOpt : Option (List (List Nat × Path))) (fs : FS) :
    (syncTarget digest mapOpt fs true).fs = fs ∧
      (syncTarget digest mapOpt fs true).moves =
        (syncTarget digest mapOpt fs false).moves := by
  cases mapOpt with
  | none => exact ⟨rfl, rfl⟩
  | some mapping =>
    constructor
    · simp only [syncTarget, if_pos rfl]
      exact runMoves_dry_state _ mapping fs
    · simp only [syncTarget]
      rw [runMoves_fst, runMoves_fst]

/-! ### Characterising the cleanup pass (claim C5) -/

/-- Whether `d` is a leading component prefix of `p`. -/
def pfxOf : Path → Path → Bool
  | [], _ => true
  | _ :: _, [] => false
  | a :: as, b :: bs => decide (a = b) && pfxOf as bs

/-- The path `p` lies strictly below directory `d`. -/
def isUnder (d p : Path) : Bool :=
  pfxOf d p && decide (d.length < p.length)

/-- Some file of the table lies strictly below `d`, so `d` can never
become empty during cleanup. -/
def hasFileUnder (files : List (Path × List Nat)) (d : Path) : Bool :=
  files.any (fun pc => isUnder d pc.1)

theorem pfxOf_length_le : ∀ {d p : Path}, pfxOf d p = true →
    d.length ≤ p.length := by
  intro d
  induction d with
  | nil => intro p _; simp
  | cons a as ih =>
    intro p h
    cases p with
    | nil => simp [pfxOf] at h
    | cons b bs =>
      simp only [pfxOf, Bool.and_eq_true, decide_eq_true_eq] at h
      simpa using Nat.succ_le_succ (ih h.2)

theorem pfxOf_take : ∀ (p : Path) (k : Nat), pfxOf (p.take k) p = true := by
  intro p
  induction p with
  | nil => intro k; simp [pfxOf]
  | cons b bs ih =>
    intro k
    cases k with
    | zero => simp [pfxOf]
    | succ k => simpa [pfxOf] using ih k

theorem take_of_pfxOf : ∀ {d p : Path}, pfxOf d p = true →
    p.take d.length = d := by
  intro d
  induction d with
  | nil => intro p _; simp
  | cons a as ih =>
    intro p h
    cases p with
    | nil => simp [pfxOf] at h
    | cons b bs =>
      simp only [pfxOf, Bool.and_eq_true, decide_eq_true_eq] at h
      simp [List.take_cons, h.1.symm, ih h.2]

theorem pfxOf_trans : ∀ {a b c : Path}, pfxOf a b = true →
    pfxOf b c = true → pfxOf a c = true := by
  intro a
  induction a with
  | nil => intro b c _ _; simp [pfxOf]
  | cons x xs ih =>
    intro b c h1 h2
    cases b with
    | nil => simp [pfxOf] at h1
    | cons y ys =>
      cases c with
      | nil => simp [pfxOf] at h2
      | cons z zs =>
        simp only [pfxOf, Bool.and_eq_true, decide_eq_true_eq] at h1 h2 ⊢
        exact ⟨h1.1.trans h2.1, ih h1.2 h2.2⟩

theorem isUnder_trans {a b c : Path} (h1 : isUnder a b = true)
    (h2 : isUnder b c = true) : isUnder a c = true := by
  simp only [isUnder, Bool.and_eq_true, decide_eq_true_eq] at h1 h2 ⊢
  exact ⟨pfxOf_trans h1.1 h2.1,
    Nat.lt_of_lt_of_le h1.2 (pfxOf_length_le h2.1)⟩

theorem pfxOf_dropLast : ∀ (p : Path), pfxOf p.dropLast p = true := by
  intro p
  induction p with
  | nil => simp [pfxOf]
  | cons a as ih =>
    cases as with
    | nil => simp [pfxOf]
    | cons b bs => simpa [pfxOf] using ih

theorem isChildOf_isUnder {d q : Path} (h : isChildOf d q = true) :
    isUnder d q = true := by
  simp only [isChildOf, Bool.and_eq_true, decide_eq_true_eq] at h
  rw [isUnder, ← h.2]
  simp only [pfxOf_dropLast, Bool.true_and, decide_eq_true_eq]
  cases q with
  | nil => exact absurd rfl h.1
  | cons a as => simp

theorem isUnder_ne {d q : Path} (h : isUnder d q = true) : q ≠ d := by
  simp only [isUnder, Bool.and_eq_true, decide_eq_true_eq] at h
  intro he
  exact absurd (he ▸ h.2) (Nat.lt_irrefl _)

theorem dropLast_take_succ {p : Path} {k : Nat} (hk : k < p.length) :
    (p.take (k + 1)).dropLast = p.take k := by
  rw [List.dropLast_eq_take, List.length_take, List.take_take]
  congr 1
  omega

theorem take_succ_isChildOf {d p : Path} (hu : isUnder d p = true)
    (hlt : d.length + 1 < p.length) :
    isChildOf d (p.take (d.length + 1)) = true := by
  simp only [isUnder, Bool.and_eq_true, decide_eq_true_eq] at hu
  simp only [isChildOf, Bool.and_eq_true, decide_eq_true_eq]
  constructor
  · intro he
    have h1 : (p.take (d.length + 1)).length = d.length + 1 := by
      rw [List.length_take]; omega
    rw [he] at h1
    simp at h1
  · rw [dropLast_take_succ (by omega), take_of_pfxOf hu.1]

theorem take_succ_isUnder_left {d p : Path} (hu : isUnder d p = true)
    (hlt : d.length + 1 < p.length) :
    isUnder d (p.take (d.length + 1)) = true :=
  isChildOf_isUnder (take_succ_isChildOf hu hlt)

theorem take_succ_isUnder_right {d p : Path} (_ : isUnder d p = true)
    (hlt : d.length + 1 < p.length) :
    isUnder (p.take (d.length + 1)) p = true := by
  simp only [isUnder, Bool.and_eq_true, decide_eq_true_eq]
  exact ⟨pfxOf_take p _, by simp [List.length_take]; omega⟩

theorem isChildOf_of_eqlen {d p : Path} (hu : isUnder d p = true)
    (hlen : p.length = d.length + 1) : isChildOf d p = true := by
  simp only [isUnder, Bool.and_eq_true, decide_eq_true_eq] at hu
  simp only [isChildOf, Bool.and_eq_true, decide_eq_true_eq]
  constructor
  · intro he
    rw [he] at hlen
    simp at hlen
  · have : p.take (d.length) = d := take_of_pfxOf hu.1
    rw [List.dropLast_eq_take, hlen]
    simpa using this

theorem cleanup_invariant (files : List (Path × List Nat))
    (ds0 : List Path)
    (hwf : ∀ pc ∈ files, ∀ k, k < pc.1.length → 0 < k →
      pc.1.take k ∈ ds0) :
    ∀ (order : List Path), order.Nodup →
      List.Pairwise (fun a b => isUnder a b = false) order →
      (∀ e ∈ order, e ∈ ds0) →
      cleanupPass files order
        (ds0.filter
          (fun e => decide (e ∈ order) || hasFileUnder files e)) =
      ds0.filter (fun e => hasFileUnder files e) := by
  intro order
  induction order with
  | nil =>
    intro _ _ _
    simp only [cleanupPass]
    apply List.filter_congr
    intro e _
    simp
  | cons d rest ih =>
    intro hnd hpw hmem
    have hdniR : d ∉ rest := (List.nodup_cons.mp hnd).1
    have hndR : rest.Nodup := (List.nodup_cons.mp hnd).2
    have hpwH : ∀ b ∈ rest, isUnder d b = false :=
      (List.pairwise_cons.mp hpw).1
    have hpwR := (List.pairwise_cons.mp hpw).2
    have hmemR : ∀ e ∈ rest, e ∈ ds0 := fun e he =>
      hmem e (List.mem_cons_of_mem _ he)
    set ds :=
      ds0.filter (fun e => decide (e ∈ d :: rest) || hasFileUnder files e)
      with hds
    have key : dirEmpty files ds d = !hasFileUnder files d := by
      cases hF : hasFileUnder files d with
      | true =>
        simp only [Bool.not_true]
        apply Bool.eq_false_iff.mpr
        intro hde
        simp only [dirEmpty, Bool.and_eq_true, List.all_eq_true] at hde
        obtain ⟨hdf, hdd⟩ := hde
        rw [hasFileUnder, List.any_eq_true] at hF
        obtain ⟨pc, hpc, hunder⟩ := hF
        have hlen : d.length < pc.1.length := by
          have h' := hunder
          simp only [isUnder, Bool.and_eq_true, decide_eq_true_eq] at h'
          exact h'.2
        rcases Nat.eq_or_lt_of_le (Nat.succ_le_of_lt hlen) with heq | hlt
        · have hch : isChildOf d pc.1 = true :=
            isChildOf_of_eqlen hunder heq.symm
          have := hdf pc hpc
          simp [hch] at this
        · have hch := take_succ_isChildOf hunder hlt
          have hcu := take_succ_isUnder_right hunder hlt
          have hcmem0 : pc.1.take (d.length + 1) ∈ ds0 :=
            hwf pc hpc _ (by omega) (by omega)
          have hcfu : hasFileUnder files (pc.1.take (d.length + 1)) = true := by
            rw [hasFileUnder, List.any_eq_true]
            exact ⟨pc, hpc, hcu⟩
          have hcds : pc.1.take (d.length + 1) ∈ ds := by
            rw [hds]
            exact List.mem_filter.mpr ⟨hcmem0, by simp [hcfu]⟩
          have := hdd _ hcds
          simp [hch] at this
      | false =>
        simp only [Bool.not_false]
        simp only [dirEmpty, Bool.and_eq_true, List.all_eq_true]
        constructor
        · intro pc hpc
          have hch : isChildOf d pc.1 = false := by
            apply Bool.eq_false_iff.mpr
            intro hch
            have hu := isChildOf_isUnder hch
            have : hasFileUnder files d = true := by
              rw [hasFileUnder, List.any_eq_true]
              exact ⟨pc, hpc, hu⟩
            rw [hF] at this
            exact Bool.false_ne_true this
          simp [hch]
        · intro q hq
          have hch : isChildOf d q = false := by
            apply Bool.eq_false_iff.mpr
            intro hch
            have hu := isChildOf_isUnder hch
            have hqd : q ≠ d := isUnder_ne hu
            rw [hds] at hq
            obtain ⟨hq0, hcond⟩ := List.mem_filter.mp hq
            simp only [Bool.or_eq_true, decide_eq_true_eq,
              List.mem_cons] at hcond
            rcases hcond with (hqdd | hqR) | hqF
            · exact hqd hqdd
            · have := hpwH q hqR
              rw [this] at hu
              exact Bool.false_ne_true hu
            · rw [hasFileUnder, List.any_eq_true] at hqF
              obtain ⟨pc, hpc, hpcq⟩ := hqF
              have : hasFileUnder files d = true := by
                rw [hasFileUnder, List.any_eq_true]
                exact ⟨pc, hpc, isUnder_trans hu hpcq⟩
              rw [hF] at this
              exact Bool.false_ne_true this
          simp [hch]
    cases hF : hasFileUnder files d with
    | true =>
      have hde : dirEmpty files ds d = false := by rw [key, hF]; rfl
      rw [cleanupPass, hde]
      simp only [Bool.false_eq_true, if_false]
      have hds_eq : ds =
          ds0.filter (fun e => decide (e ∈ rest) || hasFileUnder files e) := by
        rw [hds]
        apply List.filter_congr
        intro e _
        by_cases hed : e = d
        · subst hed
          simp [hF]
        · simp [List.mem_cons, hed]
      rw [hds_eq]
      exact ih hndR hpwR hmemR
    | false =>
      have hde : dirEmpty files ds d = true := by rw [key, hF]; rfl
      rw [cleanupPass, hde]
      simp only [if_true]
      have hds_eq : ds.filter (fun q => decide (q ≠ d)) =
          ds0.filter (fun e => decide (e ∈ rest) || hasFileUnder files e) := by
        rw [hds, List.filter_filter]
        apply List.filter_congr
        intro e _
        by_cases hed : e = d
        · subst hed
          simp [hF, hdniR]
        · simp [List.mem_cons, hed]
      rw [hds_eq]
      exact ih hndR hpwR hmemR

theorem insertByDepth_perm (d : Path) :
    ∀ l, (insertByDepth d l).Perm (d :: l) := by
  intro l
  induction l with
  | nil => exact List.Perm.refl _
  | cons e es ih =>
    simp only [insertByDepth]
    by_cases h : e.length ≤ d.length
    · rw [if_pos h]
    · rw [if_neg h]
      exact (ih.cons e).trans (List.Perm.swap _ _ _)

theorem deepFirst_perm : ∀ ds : List Path, (deepFirst ds).Perm ds := by
  intro ds
  induction ds with
  | nil => exact List.Perm.refl _
  | cons d rest ih =>
    have : deepFirst (d :: rest) = insertByDepth d (deepFirst rest) := rfl
    rw [this]
    exact (insertByDepth_perm d (deepFirst rest)).trans (ih.cons d)

theorem insertByDepth_pairwise (d : Path) :
    ∀ l, List.Pairwise (fun a b : Path => b.length ≤ a.length) l →
      List.Pairwise (fun a b : Path => b.length ≤ a.length)
        (insertByDepth d l) := by
  intro l
  induction l with
  | nil => intro _; simp [insertByDepth]
  | cons e es ih =>
    intro hp
    obtain ⟨he, hes⟩ := List.pairwise_cons.mp hp
    simp only [insertByDepth]
    by_cases h : e.length ≤ d.length
    · rw [if_pos h]
      refine List.pairwise_cons.mpr ⟨?_, hp⟩
      intro x hx
      rcases List.mem_cons.mp hx with hxe | hxes
      · rw [hxe]; exact h
      · exact (he x hxes).trans h
    · rw [if_neg h]
      refine List.pairwise_cons.mpr ⟨?_, ih hes⟩
      intro x hx
      have hmem := (insertByDepth_perm d es).mem_iff.mp hx
      rcases List.mem_cons.mp hmem with hxd | hxes
      · rw [hxd]; omega
      · exact he x hxes

theorem deepFirst_pairwise (ds : List Path) :
    List.Pairwise (fun a b : Path => b.length ≤ a.length) (deepFirst ds) := by
  induction ds with
  | nil => simp [deepFirst]
  | cons d rest ih => exact insertByDepth_pairwise d (deepFirst rest) ih

/-- Claim C5: after the moves of a non-dry-run sync, the bottom-up
cleanup pass removes exactly the directories with no file anywhere
beneath them — a child emptied during the pass empties its parent in
the same pass, since children are visited first.  Hypotheses: the
directory list has no duplicates and every proper ancestor of a file's
path is a listed directory. -/
theorem cleanup_removes_exactly_empty_dirs
    (files : List (Path × List Nat)) (ds : List Path) (hnd : ds.Nodup)
    (hwf : ∀ pc ∈ files, ∀ k, k < pc.1.length → 0 < k →
      pc.1.take k ∈ ds) :
    cleanupPass files (deepFirst ds) ds =
      ds.filter (fun d => hasFileUnder files d) := by
  have hperm := deepFirst_perm ds
  have hnd' : (deepFirst ds).Nodup := hperm.nodup_iff.mpr hnd
  have hpw : List.Pairwise (fun a b => isUnder a b = false)
      (deepFirst ds) := by
    refine (deepFirst_pairwise ds).imp ?_
    intro a b hle
    cases hu : isUnder a b with
    | false => rfl
    | true =>
      exfalso
      simp only [isUnder, Bool.and_eq_true, decide_eq_true_eq] at hu
      omega
  have hmem : ∀ e ∈ deepFirst ds, e ∈ ds := fun e he => hperm.subset he
  have h0 : ds.filter
      (fun e => decide (e ∈ deepFirst ds) || hasFileUnder files e) = ds := by
    apply List.filter_eq_self.mpr
    intro e he
    simp [hperm.mem_iff.mpr he]
  have h1 := cleanup_invariant files ds hwf (deepFirst ds) hnd' hpw hmem
  rw [h0] at h1
  exact h1

/-- Witness for claim C5: with one file `a/f`, cleanup on directories
`a`, `b`, `b/c` keeps exactly `a` (removing `b/c` empties `b`, which is
then removed in the same pass). -/
theorem cleanup_removes_exactly_empty_dirs_witness :
    cleanupPass [(["a", "f"], [0])]
      (deepFirst [["a"], ["b"], ["b", "c"]])
      [["a"], ["b"], ["b", "c"]] =
    ([["a"], ["b"], ["b", "c"]] : List Path).filter
      (fun d => hasFileUnder [(["a", "f"], [0])] d) :=
  cleanup_removes_exactly_empty_dirs _ _ (by decide) (by decide)

/-! ### The command line entry point (`main`, run.py lines 120-143) -/

/-- The two operation modes accepted by the argument parser. -/
inductive CliMode
  | scanMode
  | syncMode
deriving DecidableEq

/-- A parsed command line: the mode, whether `--src` and `--dst` were
given, whether the mapping file exists on disk, and the dry-run flag. -/
structure CliArgs where
  mode : CliMode
  srcGiven : Bool
  dstGiven : Bool
  mapFileExists : Bool
  dryRun : Bool
deriving DecidableEq

/-- The process outcome of running `main`: the interpreter exit code and
whether an error line was printed and the operation aborted before doing
its work. -/
structure CliOutcome where
  exitCode : Nat
  aborted : Bool
deriving DecidableEq

/-- Model of `main` (run.py lines 120-143) together with the missing-mapping
check of `sync_target` (lines 69-73): a missing `--src` or `--dst`
argument, or a missing mapping file, prints an error message and
returns from the function; every branch returns normally and `sys.exit`
is never called, so the interpreter exits with code 0 on every path. -/
def runMain (a : CliArgs) : CliOutcome :=
  match a.mode with
  | CliMode.scanMode =>
    if a.srcGiven then ⟨0, false⟩ else ⟨0, true⟩
  | CliMode.syncMode =>
    if a.dstGiven then
      if a.mapFileExists then ⟨0, false⟩ else ⟨0, true⟩
    else ⟨0, true⟩

/-- Counterexample to claim C9: a sync invocation whose mapping file is
missing reports the error and aborts, yet the process exits with code 0,
not the non-zero code the claim requires. -/
theorem missing_mapping_still_exits_zero :
    (runMain ⟨CliMode.syncMode, false, true, false, false⟩).exitCode = 0 ∧
      (runMain ⟨CliMode.syncMode, false, true, false, false⟩).aborted =
        true :=
  ⟨rfl, rfl⟩

/-- Claim C9 (amended): the sync command exits with code 0 on completion
(even with per-file skips), and it also exits with code 0 when the
target directory or the mapping file is missing — the missing mapping is
reported and the sync aborts, but no path of `main` produces a non-zero
exit code. -/
theorem cli_always_exits_zero (a : CliArgs) : (runMain a).exitCode = 0 := by
  obtain ⟨mode, src, dst, mapx, dry⟩ := a
  cases mode <;> cases src <;> cases dst <;> cases mapx <;> rfl

/-! ### Index and move lemmas towards idempotence (claim C4) -/

theorem insertSorted_perm (f : Path × List Nat) :
    ∀ l, (insertSorted f l).Perm (f :: l) := by
  intro l
  induction l with
  | nil => exact List.Perm.refl _
  | cons g gs ih =>
    simp only [insertSorted]
    by_cases h : pathLe f.1 g.1
    · rw [if_pos h]
    · rw [if_neg h]
      exact (ih.cons g).trans (List.Perm.swap _ _ _)

theorem walkOrder_perm (files : List (Path × List Nat)) :
    (walkOrder files).Perm files := by
  induction files with
  | nil => exact List.Perm.refl _
  | cons f rest ih =>
    have : walkOrder (f :: rest) = insertSorted f (walkOrder rest) := rfl
    rw [this]
    exact (insertSorted_perm f (walkOrder rest)).trans (ih.cons f)

theorem buildIndex_eq (digest : List Nat → List Nat)
    (files : List (Path × List Nat)) :
    buildIndex digest files =
      foldInsert ((walkOrder files).map
        (fun pc => (fingerprint digest pc.2, pc.1))) := by
  rw [foldInsert, List.foldl_map]
  rfl

/-- Soundness of the target index: every lookup answer names a file of
the table, with the matching fingerprint. -/
theorem index_sound (digest : List Nat → List Nat)
    (files : List (Path × List Nat)) {h : List Nat} {p : Path}
    (hl : lookupA h (buildIndex digest files) = some p) :
    ∃ c, (p, c) ∈ files ∧ fingerprint digest c = h := by
  have hmem := mem_of_lookupA hl
  rw [buildIndex_eq] at hmem
  have hmem2 := mem_foldInsert hmem
  obtain ⟨pc, hpc, hpceq⟩ := List.mem_map.mp hmem2
  obtain ⟨p1, c1⟩ := pc
  injection hpceq with e1 e2
  refine ⟨c1, ?_, e1⟩
  rw [← e2]
  exact (walkOrder_perm files).subset hpc

/-- Completeness of the target index: every file's fingerprint is a key. -/
theorem index_complete (digest : List Nat → List Nat)
    (files : List (Path × List Nat)) {p : Path} {c : List Nat}
    (hmem : (p, c) ∈ files) :
    (lookupA (fingerprint digest c) (buildIndex digest files)).isSome := by
  rw [buildIndex_eq, lookupA_isSome_iff, mem_keysA_foldInsert]
  have : (p, c) ∈ walkOrder files := (walkOrder_perm files).mem_iff.mpr hmem
  simp only [keysA, List.map_map]
  exact List.mem_map.mpr ⟨(p, c), this, rfl⟩

/-- With pairwise-distinct file fingerprints, the index maps each file's
fingerprint to that file's path. -/
theorem index_lookup_of_fps_nodup (digest : List Nat → List Nat)
    (files : List (Path × List Nat)) {p : Path} {c : List Nat}
    (hmem : (p, c) ∈ files)
    (hfps : (files.map (fun pc => fingerprint digest pc.2)).Nodup) :
    lookupA (fingerprint digest c) (buildIndex digest files) = some p := by
  rw [buildIndex_eq]
  have hmemW : (p, c) ∈ walkOrder files :=
    (walkOrder_perm files).mem_iff.mpr hmem
  have hfpsW : ((walkOrder files).map
      (fun pc => fingerprint digest pc.2)).Nodup := by
    refine (List.Perm.nodup_iff ?_).mpr hfps
    exact (walkOrder_perm files).map _
  have hinj := List.inj_on_of_nodup_map hfpsW
  apply lookupA_foldInsert_unique
  · exact List.mem_map.mpr ⟨(p, c), hmemW, rfl⟩
  · intro x hx hx1
    obtain ⟨qd, hqd, hqdeq⟩ := List.mem_map.mp hx
    obtain ⟨q, d⟩ := qd
    subst hqdeq
    show q = p
    have h2 : (q, d) = (p, c) := hinj hqd hmemW (by simpa using hx1)
    exact congrArg Prod.fst h2

/-- Values of the index are paths of the table. -/
theorem index_value_mem_keys (digest : List Nat → List Nat)
    (files : List (Path × List Nat)) {h : List Nat} {o : Path}
    (hl : lookupA h (buildIndex digest files) = some o) :
    o ∈ keysA files := by
  obtain ⟨c, hc, _⟩ := index_sound digest files hl
  exact List.mem_map.mpr ⟨(o, c), hc, rfl⟩

/-- With path-unique files, the index is injective: distinct fingerprint
keys hold distinct paths. -/
theorem index_value_inj (digest : List Nat → List Nat)
    (files : List (Path × List Nat)) (hnd : (keysA files).Nodup)
    {h h' : List Nat} {o : Path}
    (hl : lookupA h (buildIndex digest files) = some o)
    (hl' : lookupA h' (buildIndex digest files) = some o) : h = h' := by
  obtain ⟨c, hc, hfc⟩ := index_sound digest files hl
  obtain ⟨c', hc', hfc'⟩ := index_sound digest files hl'
  have e1 := lookupA_of_mem_nodup hc hnd
  have e2 := lookupA_of_mem_nodup hc' hnd
  rw [e1] at e2
  injection e2 with e3
  rw [← hfc, ← hfc', e3]

section MoveFileLemmas

theorem lookupA_filterNe_ne {old q : Path} (hq : q ≠ old)
    (files : List (Path × List Nat)) :
    lookupA q (files.filter (fun pc => decide (pc.1 ≠ old))) =
      lookupA q files := by
  induction files with
  | nil => rfl
  | cons pc rest ih =>
    obtain ⟨a, b⟩ := pc
    simp only [ne_eq, decide_not] at ih ⊢
    by_cases ha : a = old
    · subst ha
      simp [lookupA, List.filter_cons, Ne.symm hq, hq, ih]
    · by_cases haq : a = q
      · subst haq
        simp [lookupA, List.filter_cons, ha, hq]
      · simp [lookupA, List.filter_cons, ha, haq, hq, ih]

theorem keysA_filterNe {old : Path} {files : List (Path × List Nat)}
    {q : Path} :
    q ∈ keysA (files.filter (fun pc => decide (pc.1 ≠ old))) ↔
      q ∈ keysA files ∧ q ≠ old := by
  simp only [keysA, List.mem_map, List.mem_filter, decide_eq_true_eq]
  constructor
  · rintro ⟨pc, ⟨hmem, hne⟩, hq⟩
    exact ⟨⟨pc, hmem, hq⟩, hq ▸ hne⟩
  · rintro ⟨⟨pc, hmem, hq⟩, hne⟩
    exact ⟨pc, ⟨hmem, hq ▸ hne⟩, hq⟩

theorem keysA_nodup_filterNe {old : Path} {files : List (Path × List Nat)}
    (hnd : (keysA files).Nodup) :
    (keysA (files.filter (fun pc => decide (pc.1 ≠ old)))).Nodup := by
  have hsub : (files.filter (fun pc => decide (pc.1 ≠ old))).Sublist files :=
    List.filter_sublist files
  exact List.Nodup.sublist (hsub.map Prod.fst) hnd

/-- Extracting an entry: a nodup-keyed table is a permutation of the
looked-up entry plus the rest. -/
theorem perm_extract {old : Path} {c : List Nat}
    {files : List (Path × List Nat)} (hnd : (keysA files).Nodup)
    (hl : lookupA old files = some c) :
    files.Perm ((old, c) :: files.filter (fun pc => decide (pc.1 ≠ old))) := by
  induction files with
  | nil => simp [lookupA] at hl
  | cons pc rest ih =>
    obtain ⟨a, b⟩ := pc
    simp only [keysA, List.map_cons, List.nodup_cons] at hnd
    by_cases ha : a = old
    · subst ha
      have hb : some b = some c := by rw [← hl]; simp [lookupA]
      injection hb with hb
      subst hb
      have hrest : rest.filter (fun pc => decide (pc.1 ≠ a)) = rest := by
        apply List.filter_eq_self.mpr
        intro pc hpc
        simp only [decide_eq_true_eq]
        intro he
        exact hnd.1 (List.mem_map.mpr ⟨pc, hpc, he⟩)
      have hfil : ((a, b) :: rest).filter (fun pc => decide (pc.1 ≠ a)) =
          rest := by
        rw [show ((a, b) :: rest).filter (fun pc => decide (pc.1 ≠ a)) =
            rest.filter (fun pc => decide (pc.1 ≠ a)) from by
          simp [List.filter_cons]]
        exact hrest
      rw [hfil]
    · simp only [lookupA, if_neg ha] at hl
      have hperm := (ih (by simpa [keysA] using hnd.2) hl).cons (a, b)
      refine hperm.trans ?_
      have hfil : ((a, b) :: rest).filter (fun pc => decide (pc.1 ≠ old)) =
          (a, b) :: rest.filter (fun pc => decide (pc.1 ≠ old)) := by
        simp [List.filter_cons, ha]
      rw [hfil]
      exact List.Perm.swap _ _ _

theorem moveFile_eq {old rel : Path} {c : List Nat}
    {cur : List (Path × List Nat)} (h1 : lookupA old cur = some c)
    (h2 : rel ∉ keysA cur) :
    moveFile old rel cur =
      cur.filter (fun pc => decide (pc.1 ≠ old)) ++ [(rel, c)] := by
  rw [moveFile, h1]
  apply insertA_of_not_mem_keysA
  intro hmem
  exact h2 (keysA_filterNe.mp hmem).1

theorem moveFile_snd_perm {old rel : Path} {c : List Nat}
    {cur : List (Path × List Nat)} (hnd : (keysA cur).Nodup)
    (h1 : lookupA old cur = some c) (h2 : rel ∉ keysA cur) :
    ((moveFile old rel cur).map Prod.snd).Perm (cur.map Prod.snd) := by
  rw [moveFile_eq h1 h2]
  have hp := perm_extract hnd h1
  have hp2 := hp.map Prod.snd
  simp only [List.map_cons] at hp2
  refine List.Perm.trans ?_ hp2.symm
  simp only [List.map_append, List.map_cons, List.map_nil]
  exact List.perm_append_singleton _ _

theorem lookupA_moveFile_self {old rel : Path} {c : List Nat}
    {cur : List (Path × List Nat)} (h1 : lookupA old cur = some c) :
    lookupA rel (moveFile old rel cur) = some c := by
  rw [moveFile, h1]
  exact lookupA_insertA_self _ _ _

theorem lookupA_moveFile_other {old rel q : Path} {c : List Nat}
    {cur : List (Path × List Nat)} (h1 : lookupA old cur = some c)
    (hqo : q ≠ old) (hqr : q ≠ rel) :
    lookupA q (moveFile old rel cur) = lookupA q cur := by
  rw [moveFile, h1, lookupA_insertA_ne _ _ _ _ hqr,
    lookupA_filterNe_ne hqo]

theorem keysA_moveFile_mem {old rel q : Path} {c : List Nat}
    {cur : List (Path × List Nat)} (h1 : lookupA old cur = some c) :
    q ∈ keysA (moveFile old rel cur) →
      q = rel ∨ (q ∈ keysA cur ∧ q ≠ old) := by
  rw [moveFile, h1]
  intro hq
  rcases mem_keysA_insertA.mp hq with hq' | hq'
  · exact Or.inl hq'
  · exact Or.inr (keysA_filterNe.mp hq')

theorem keysA_nodup_moveFile {old rel : Path}
    {cur : List (Path × List Nat)} (hnd : (keysA cur).Nodup) :
    (keysA (moveFile old rel cur)).Nodup := by
  rw [moveFile]
  cases lookupA old cur with
  | none => exact hnd
  | some c => exact keysA_nodup_insertA (keysA_nodup_filterNe hnd)

end MoveFileLemmas

/-- The file-table component of the non-dry-run move loop: decisions
read only the index while the table evolves through `moveFile`. -/
def runFiles (index : List (List Nat × Path)) :
    List (List Nat × Path) → List (Path × List Nat) →
      List (Path × List Nat)
  | [], cur => cur
  | (h, rel) :: rest, cur =>
    match lookupA h index with
    | none => runFiles index rest cur
    | some old =>
      if old = rel then runFiles index rest cur
      else runFiles index rest (moveFile old rel cur)

theorem runFiles_cons_none {index : List (List Nat × Path)}
    {h : List Nat} {rel : Path} (rest : List (List Nat × Path))
    (cur : List (Path × List Nat)) (e : lookupA h index = none) :
    runFiles index ((h, rel) :: rest) cur = runFiles index rest cur := by
  simp [runFiles, e]

theorem runFiles_cons_skip {index : List (List Nat × Path)}
    {h : List Nat} {rel old : Path} (rest : List (List Nat × Path))
    (cur : List (Path × List Nat)) (e : lookupA h index = some old)
    (he : old = rel) :
    runFiles index ((h, rel) :: rest) cur = runFiles index rest cur := by
  simp [runFiles, e, he]

theorem runFiles_cons_move {index : List (List Nat × Path)}
    {h : List Nat} {rel old : Path} (rest : List (List Nat × Path))
    (cur : List (Path × List Nat)) (e : lookupA h index = some old)
    (he : ¬old = rel) :
    runFiles index ((h, rel) :: rest) cur =
      runFiles index rest (moveFile old rel cur) := by
  simp [runFiles, e, he]

theorem plannedMoves_cons_none {index : List (List Nat × Path)}
    {h : List Nat} {rel : Path} (rest : List (List Nat × Path))
    (e : lookupA h index = none) :
    plannedMoves index ((h, rel) :: rest) = plannedMoves index rest := by
  simp [plannedMoves, e]

theorem plannedMoves_cons_skip {index : List (List Nat × Path)}
    {h : List Nat} {rel old : Path} (rest : List (List Nat × Path))
    (e : lookupA h index = some old) (he : old = rel) :
    plannedMoves index ((h, rel) :: rest) = plannedMoves index rest := by
  simp [plannedMoves, e, he]

theorem plannedMoves_cons_move {index : List (List Nat × Path)}
    {h : List Nat} {rel old : Path} (rest : List (List Nat × Path))
    (e : lookupA h index = some old) (he : ¬old = rel) :
    plannedMoves index ((h, rel) :: rest) =
      (old, rel) :: plannedMoves index rest := by
  simp [plannedMoves, e, he]

theorem plannedMoves_mem (index : List (List Nat × Path)) :
    ∀ (l : List (List Nat × Path)) (x : Path × Path),
      x ∈ plannedMoves index l →
      ∃ hx, (hx, x.2) ∈ l ∧ lookupA hx index = some x.1 ∧ x.1 ≠ x.2 := by
  intro l
  induction l with
  | nil => intro x hx; simp [plannedMoves] at hx
  | cons hr rest ih =>
    intro x hx
    obtain ⟨h, rel⟩ := hr
    cases e : lookupA h index with
    | none =>
      rw [plannedMoves_cons_none rest e] at hx
      obtain ⟨hx', hm, hl, hne⟩ := ih x hx
      exact ⟨hx', List.mem_cons_of_mem _ hm, hl, hne⟩
    | some old =>
      by_cases he : old = rel
      · rw [plannedMoves_cons_skip rest e he] at hx
        obtain ⟨hx', hm, hl, hne⟩ := ih x hx
        exact ⟨hx', List.mem_cons_of_mem _ hm, hl, hne⟩
      · rw [plannedMoves_cons_move rest e he] at hx
        rcases List.mem_cons.mp hx with h1 | h1
        · subst h1
          exact ⟨h, List.mem_cons_self _ _, e, he⟩
        · obtain ⟨hx', hm, hl, hne⟩ := ih x h1
          exact ⟨hx', List.mem_cons_of_mem _ hm, hl, hne⟩

theorem plannedMoves_fst_mem_keys (digest : List Nat → List Nat)
    (F : List (Path × List Nat)) (l : List (List Nat × Path))
    {x : Path × Path} (hx : x ∈ plannedMoves (buildIndex digest F) l) :
    x.1 ∈ keysA F := by
  obtain ⟨hx', _, hl, _⟩ := plannedMoves_mem _ l x hx
  exact index_value_mem_keys digest F hl

theorem plannedMoves_eq_nil (index : List (List Nat × Path)) :
    ∀ (l : List (List Nat × Path)),
      (∀ h rel, (h, rel) ∈ l →
        lookupA h index = none ∨ lookupA h index = some rel) →
      plannedMoves index l = [] := by
  intro l
  induction l with
  | nil => intro _; rfl
  | cons hr rest ih =>
    intro hyp
    obtain ⟨h, rel⟩ := hr
    rcases hyp h rel (List.mem_cons_self _ _) with e | e
    · rw [plannedMoves_cons_none rest e]
      exact ih (fun h' rel' hm => hyp h' rel' (List.mem_cons_of_mem _ hm))
    · rw [plannedMoves_cons_skip rest e rfl]
      exact ih (fun h' rel' hm => hyp h' rel' (List.mem_cons_of_mem _ hm))

theorem runMoves_snd_files (index : List (List Nat × Path)) :
    ∀ (l : List (List Nat × Path)) (fs : FS),
      ((runMoves false index l fs).2).files = runFiles index l fs.files := by
  intro l
  induction l with
  | nil => intro fs; rfl
  | cons hr rest ih =>
    intro fs
    obtain ⟨h, rel⟩ := hr
    simp only [runMoves, runFiles]
    cases lookupA h index with
    | none => exact ih fs
    | some old =>
      by_cases he : old = rel
      · simp only [if_pos he]
        exact ih fs
      · simp only [if_neg he, Bool.false_eq_true, if_false]
        exact ih (applyMove old rel fs)

theorem syncTarget_files (digest : List Nat → List Nat)
    (mapping : List (List Nat × Path)) (fs : FS) :
    ((syncTarget digest (some mapping) fs false).fs).files =
      runFiles (buildIndex digest fs.files) mapping fs.files := by
  simp only [syncTarget, Bool.false_eq_true, if_false]
  exact runMoves_snd_files (buildIndex digest fs.files) mapping fs

theorem syncTarget_moves (digest : List Nat → List Nat)
    (mapping : List (List Nat × Path)) (fs : FS) (dry : Bool) :
    (syncTarget digest (some mapping) fs dry).moves =
      plannedMoves (buildIndex digest fs.files) mapping := by
  simp only [syncTarget]
  exact runMoves_fst dry (buildIndex digest fs.files) mapping fs

/-- Execution of the move loop under the idempotence hypotheses: each
matched fingerprint's file ends at its mapped destination, the multiset
of file contents is preserved, path uniqueness is preserved, and paths
not involved in any move keep their content. -/
theorem run_exec (digest : List Nat → List Nat)
    (F : List (Path × List Nat)) (M : List (List Nat × Path))
    (HFnd : (keysA F).Nodup)
    (HdF : ∀ x ∈ plannedMoves (buildIndex digest F) M, x.2 ∉ keysA F) :
    ∀ (l : List (List Nat × Path)) (cur : List (Path × List Nat)),
      (l.map Prod.fst).Nodup →
      (∀ x ∈ plannedMoves (buildIndex digest F) l,
        x ∈ plannedMoves (buildIndex digest F) M) →
      ((plannedMoves (buildIndex digest F) l).map Prod.snd).Nodup →
      (∀ h rel o, (h, rel) ∈ l →
        lookupA h (buildIndex digest F) = some o →
        lookupA o cur = lookupA o F) →
      (∀ x ∈ plannedMoves (buildIndex digest F) l, x.2 ∉ keysA cur) →
      (keysA cur).Nodup →
      (∀ h rel o, (h, rel) ∈ l →
          lookupA h (buildIndex digest F) = some o →
          lookupA rel (runFiles (buildIndex digest F) l cur) =
            lookupA o F) ∧
        ((runFiles (buildIndex digest F) l cur).map Prod.snd).Perm
          (cur.map Prod.snd) ∧
        (keysA (runFiles (buildIndex digest F) l cur)).Nodup ∧
        (∀ p : Path,
          p ∉ (plannedMoves (buildIndex digest F) l).map Prod.fst →
          p ∉ (plannedMoves (buildIndex digest F) l).map Prod.snd →
          lookupA p (runFiles (buildIndex digest F) l cur) =
            lookupA p cur) := by
  intro l
  induction l with
  | nil =>
    intro cur _ _ _ _ _ H4
    exact ⟨fun h rel o hm => absurd hm (List.not_mem_nil _),
      List.Perm.refl _, H4, fun p _ _ => rfl⟩
  | cons hr rest ih =>
    intro cur Hlnd Hsub Hdnd H1 H2 H4
    obtain ⟨h0, rel0⟩ := hr
    have Hlnd' : (rest.map Prod.fst).Nodup := by
      simp only [List.map_cons, List.nodup_cons] at Hlnd
      exact Hlnd.2
    have Hh0 : h0 ∉ rest.map Prod.fst := by
      simp only [List.map_cons, List.nodup_cons] at Hlnd
      exact Hlnd.1
    cases hidx : lookupA h0 (buildIndex digest F) with
    | none =>
      rw [runFiles_cons_none rest cur hidx]
      have hpl :=
        @plannedMoves_cons_none (buildIndex digest F) h0 rel0 rest hidx
      rw [hpl] at Hsub Hdnd H2 ⊢
      obtain ⟨ca, cc, cd, ce⟩ := ih cur Hlnd' Hsub Hdnd
        (fun h rel o hm ho => H1 h rel o (List.mem_cons_of_mem _ hm) ho)
        H2 H4
      refine ⟨?_, cc, cd, ce⟩
      intro h rel o hm ho
      rcases List.mem_cons.mp hm with h1 | h1
      · injection h1 with e1 e2
        rw [e1] at ho
        simp [hidx] at ho
      · exact ca h rel o h1 ho
    | some old0 =>
      have hlook0 : lookupA old0 cur = lookupA old0 F :=
        H1 h0 rel0 old0 (List.mem_cons_self _ _) hidx
      obtain ⟨c0, hc0mem, hc0fp⟩ := index_sound digest F hidx
      have hF0 : lookupA old0 F = some c0 :=
        lookupA_of_mem_nodup hc0mem HFnd
      have hcur0 : lookupA old0 cur = some c0 := by rw [hlook0, hF0]
      have hold0keys : old0 ∈ keysA F := index_value_mem_keys digest F hidx
      by_cases he : old0 = rel0
      · rw [runFiles_cons_skip rest cur hidx he]
        have hpl :=
          @plannedMoves_cons_skip (buildIndex digest F) h0 rel0 old0 rest hidx he
        rw [hpl] at Hsub Hdnd H2 ⊢
        obtain ⟨ca, cc, cd, ce⟩ := ih cur Hlnd' Hsub Hdnd
          (fun h rel o hm ho => H1 h rel o (List.mem_cons_of_mem _ hm) ho)
          H2 H4
        refine ⟨?_, cc, cd, ce⟩
        intro h rel o hm ho
        rcases List.mem_cons.mp hm with h1 | h1
        · injection h1 with e1 e2
          have e3 : o = old0 := by
            have h5 : some o = some old0 := by rw [← ho, e1, hidx]
            exact Option.some.inj h5
          have hrelkeys : rel0 ∈ keysA F := he ▸ hold0keys
          have hno : rel0 ∉
              (plannedMoves (buildIndex digest F) rest).map Prod.fst := by
            intro hmem
            obtain ⟨x, hx, hx1⟩ := List.mem_map.mp hmem
            obtain ⟨hx', hxmem, hxlook, _⟩ := plannedMoves_mem _ rest x hx
            rw [hx1, ← he] at hxlook
            have hxh : hx' = h0 := index_value_inj digest F HFnd hxlook hidx
            apply Hh0
            rw [← hxh]
            exact List.mem_map.mpr ⟨(hx', x.2), hxmem, rfl⟩
          have hnd2 : rel0 ∉
              (plannedMoves (buildIndex digest F) rest).map Prod.snd := by
            intro hmem
            obtain ⟨x, hx, hx2⟩ := List.mem_map.mp hmem
            have hxM := Hsub x hx
            exact HdF x hxM (by rw [hx2]; exact hrelkeys)
          have hce := ce rel0 hno hnd2
          rw [e2, hce, e3, ← he]
          exact hlook0
        · exact ca h rel o h1 ho
      · rw [runFiles_cons_move rest cur hidx he]
        have hpl :=
          @plannedMoves_cons_move (buildIndex digest F) h0 rel0 old0 rest hidx he
        have hheadM : ((old0, rel0) : Path × Path) ∈
            plannedMoves (buildIndex digest F) M := by
          apply Hsub
          rw [hpl]
          exact List.mem_cons_self _ _
        have hrel0F : rel0 ∉ keysA F := HdF _ hheadM
        have hrel0cur : rel0 ∉ keysA cur :=
          H2 (old0, rel0) (by rw [hpl]; exact List.mem_cons_self _ _)
        have Hdnd' :
            ((plannedMoves (buildIndex digest F) rest).map Prod.snd).Nodup := by
          rw [hpl] at Hdnd
          simp only [List.map_cons, List.nodup_cons] at Hdnd
          exact Hdnd.2
        have hrel0rest : rel0 ∉
            (plannedMoves (buildIndex digest F) rest).map Prod.snd := by
          rw [hpl] at Hdnd
          simp only [List.map_cons, List.nodup_cons] at Hdnd
          exact Hdnd.1
        have Hsub' : ∀ x ∈ plannedMoves (buildIndex digest F) rest,
            x ∈ plannedMoves (buildIndex digest F) M := by
          intro x hx
          apply Hsub
          rw [hpl]
          exact List.mem_cons_of_mem _ hx
        have H1' : ∀ h rel o, (h, rel) ∈ rest →
            lookupA h (buildIndex digest F) = some o →
            lookupA o (moveFile old0 rel0 cur) = lookupA o F := by
          intro h rel o hm ho
          have hne0 : o ≠ old0 := by
            intro heq
            have hxh : h = h0 :=
              index_value_inj digest F HFnd (heq ▸ ho) hidx
            apply Hh0
            rw [← hxh]
            exact List.mem_map.mpr ⟨(h, rel), hm, rfl⟩
          have hner : o ≠ rel0 := by
            intro heq
            apply hrel0F
            rw [← heq]
            exact index_value_mem_keys digest F ho
          rw [lookupA_moveFile_other hcur0 hne0 hner]
          exact H1 h rel o (List.mem_cons_of_mem _ hm) ho
        have H2' : ∀ x ∈ plannedMoves (buildIndex digest F) rest,
            x.2 ∉ keysA (moveFile old0 rel0 cur) := by
          intro x hx hmem
          rcases keysA_moveFile_mem hcur0 hmem with h1 | h1
          · exact hrel0rest (List.mem_map.mpr ⟨x, hx, h1⟩)
          · exact H2 x (by rw [hpl]; exact List.mem_cons_of_mem _ hx) h1.1
        have H4' : (keysA (moveFile old0 rel0 cur)).Nodup :=
          keysA_nodup_moveFile H4
        obtain ⟨ca, cc, cd, ce⟩ :=
          ih (moveFile old0 rel0 cur) Hlnd' Hsub' Hdnd' H1' H2' H4'
        refine ⟨?_, ?_, cd, ?_⟩
        · intro h rel o hm ho
          rcases List.mem_cons.mp hm with h1 | h1
          · injection h1 with e1 e2
            have e3 : o = old0 := by
              have h5 : some o = some old0 := by rw [← ho, e1, hidx]
              exact Option.some.inj h5
            rw [e2, e3]
            have hno : rel0 ∉
                (plannedMoves (buildIndex digest F) rest).map Prod.fst := by
              intro hmem
              obtain ⟨x, hx, hx1⟩ := List.mem_map.mp hmem
              apply hrel0F
              rw [← hx1]
              exact plannedMoves_fst_mem_keys digest F rest hx
            have hce := ce rel0 hno hrel0rest
            rw [hce, lookupA_moveFile_self hcur0, hF0]
          · exact ca h rel o h1 ho
        · refine cc.trans ?_
          exact moveFile_snd_perm H4 hcur0 hrel0cur
        · intro p hpo hpd
          rw [hpl] at hpo hpd
          simp only [List.map_cons, List.mem_cons, not_or] at hpo hpd
          have hstep := ce p hpo.2 hpd.2
          rw [hstep, lookupA_moveFile_other hcur0 hpo.1 hpd.1]

/-- Counterexample to claim C4: the target holds two identical-content
files `a/g/dup` and `a/g/sub/dup2`, and the mapping sends that content
to `a/f`.  Every ordering used here is forced by the topdown walk
itself, independent of sibling order: in run one, `a/g`'s own file
`dup` is walked before `a/g/sub`'s file `dup2`, so last-wins indexes
`dup2` and the sync moves it to `a/f`.  In run two, `a`'s own file
`a/f` is walked before the file `a/g/dup` inside the subdirectory
`a/g`, so last-wins indexes the stale duplicate `a/g/dup`, which is not
at the destination — the second run reports and performs another move
instead of zero moves. -/
theorem sync_twice_moves_again :
    (syncTarget id (some [([0], ["a", "f"])])
      ((syncTarget id (some [([0], ["a", "f"])])
        ⟨[(["a", "g", "dup"], [0]), (["a", "g", "sub", "dup2"], [0])],
          [["a"], ["a", "g"], ["a", "g", "sub"]]⟩ false).fs) false).moves =
      [(["a", "g", "dup"], ["a", "f"])] := by
  decide

/-- Claim C4 (amended): a second non-dry-run sync with the same mapping
performs zero moves — every matched fingerprint already resides at its
mapped destination — provided the target files have pairwise-distinct
paths and pairwise-distinct fingerprints, the mapping keys are unique,
and the planned destinations are distinct paths not occupied by any
pre-existing target file.  Without the distinctness hypotheses the code
violates the claim (see the duplicate-content counterexample). -/
theorem sync_idempotent_of_unique_fps (digest : List Nat → List Nat)
    (fs : FS) (mapping : List (List Nat × Path))
    (HFnd : (keysA fs.files).Nodup)
    (Hfps : (fs.files.map (fun pc => fingerprint digest pc.2)).Nodup)
    (Hmnd : (mapping.map Prod.fst).Nodup)
    (Hdnd : ((plannedMoves (buildIndex digest fs.files) mapping).map
      Prod.snd).Nodup)
    (HdF : ∀ x ∈ plannedMoves (buildIndex digest fs.files) mapping,
      x.2 ∉ keysA fs.files) :
    (syncTarget digest (some mapping)
      ((syncTarget digest (some mapping) fs false).fs) false).moves = [] := by
  rw [syncTarget_moves, syncTarget_files]
  obtain ⟨ca, cc, _, _⟩ :=
    run_exec digest fs.files mapping HFnd HdF mapping fs.files Hmnd
      (fun x hx => hx) Hdnd (fun h rel o hm ho => rfl) HdF HFnd
  have hfps1 : ((runFiles (buildIndex digest fs.files) mapping
      fs.files).map (fun pc => fingerprint digest pc.2)).Nodup := by
    have h1 : (runFiles (buildIndex digest fs.files) mapping
        fs.files).map (fun pc => fingerprint digest pc.2) =
        ((runFiles (buildIndex digest fs.files) mapping
          fs.files).map Prod.snd).map (fingerprint digest) := by
      rw [List.map_map]
      rfl
    have h2 : fs.files.map (fun pc => fingerprint digest pc.2) =
        (fs.files.map Prod.snd).map (fingerprint digest) := by
      rw [List.map_map]
      rfl
    rw [h1]
    refine (List.Perm.nodup_iff (cc.map (fingerprint digest))).mpr ?_
    rw [← h2]
    exact Hfps
  apply plannedMoves_eq_nil
  intro h rel hm
  cases e1 : lookupA h (buildIndex digest fs.files) with
  | none =>
    left
    cases e2 : lookupA h (buildIndex digest
        (runFiles (buildIndex digest fs.files) mapping fs.files)) with
    | none => rfl
    | some q =>
      exfalso
      obtain ⟨d, hd, hfd⟩ := index_sound digest _ e2
      have hdmem : d ∈ fs.files.map Prod.snd :=
        cc.subset (List.mem_map.mpr ⟨(q, d), hd, rfl⟩)
      obtain ⟨pc, hpc, hpc2⟩ := List.mem_map.mp hdmem
      have hmemF : (pc.1, d) ∈ fs.files := by
        rw [← hpc2]
        exact hpc
      have hsome := index_complete digest fs.files hmemF
      rw [hfd, e1] at hsome
      simp at hsome
  | some o =>
    right
    have hcal := ca h rel o hm e1
    obtain ⟨c, hcF, hcfp⟩ := index_sound digest fs.files e1
    have hoF : lookupA o fs.files = some c := lookupA_of_mem_nodup hcF HFnd
    have hrel1 : lookupA rel (runFiles (buildIndex digest fs.files)
        mapping fs.files) = some c := by
      rw [hcal, hoF]
    have hmem1 := mem_of_lookupA hrel1
    have hlast := index_lookup_of_fps_nodup digest _ hmem1 hfps1
    rw [hcfp] at hlast
    exact hlast

/-- Witness for the amended claim C4: one target file `m/x`, mapped to
`a/x`; the first sync moves it there and the second sync performs zero
moves. -/
theorem sync_idempotent_of_unique_fps_witness :
    (syncTarget id (some [([1], ["a", "x"])])
      ((syncTarget id (some [([1], ["a", "x"])])
        ⟨[(["m", "x"], [1])], [["m"]]⟩ false).fs) false).moves = [] :=
  sync_idempotent_of_unique_fps id ⟨[(["m", "x"], [1])], [["m"]]⟩
    [([1], ["a", "x"])] (by decide) (by decide) (by decide) (by decide)
    (by decide)

/-! ### The mapping store (run.py lines 60-61 and 75-76)

`scan_source` persists the mapping with
`json.dump(mapping, f, ensure_ascii=False, indent=4)` and `sync_target`
reads it back with `json.load(f)`.  Both sides are embedded at the
character level: `saveMapping` produces exactly the document text
`json.dump` emits for a string-to-string dictionary (including its
escaping rules), and `loadMapping` parses such a JSON object document
back into a dictionary, handling whitespace, all string escapes and the
last-wins duplicate-key rule of Python's parser. -/

/-- Lowercase hexadecimal digit, as in Python's `'%'`-style
(`'%04x'`) formatting of control characters. -/
def hexDigitChar (n : Nat) : Char :=
  if n < 10 then Char.ofNat (48 + n) else Char.ofNat (87 + n)

/-- JSON string escaping as performed by `json.dump` with
`ensure_ascii=False`: quote, backslash and the control characters below
0x20 are escaped (short escapes for the common ones, `\u00XX` for the
rest); every other character is written as itself. -/
def escapeChar (c : Char) : List Char :=
  if c = '"' then ['\\', '"']
  else if c = '\\' then ['\\', '\\']
  else if c = '\x08' then ['\\', 'b']
  else if c = '\x0c' then ['\\', 'f']
  else if c = '\n' then ['\\', 'n']
  else if c = '\r' then ['\\', 'r']
  else if c = '\t' then ['\\', 't']
  else if c.toNat < 32 then
    ['\\', 'u', '0', '0', hexDigitChar (c.toNat / 16),
      hexDigitChar (c.toNat % 16)]
  else [c]

def escapeStr : List Char → List Char
  | [] => []
  | c :: cs => escapeChar c ++ escapeStr cs

/-- One `"key": "value"` line of the document, indented by four spaces
(`indent=4`; the item separator is `': '`). -/
def serEntry (kv : List Char × List Char) : List Char :=
  [' ', ' ', ' ', ' ', '"'] ++ escapeStr kv.1 ++
    ['"', ':', ' ', '"'] ++ escapeStr kv.2 ++ ['"']

/-- The entry lines joined by the `',\n'` separator `json.dump` uses
with an indent. -/
def serEntries : List (List Char × List Char) → List Char
  | [] => []
  | [kv] => serEntry kv
  | kv :: rest => serEntry kv ++ [',', '\n'] ++ serEntries rest

/-- The full document written by
`json.dump(mapping, f, ensure_ascii=False, indent=4)`. -/
def saveMapping (m : List (List Char × List Char)) : List Char :=
  if m = [] then ['\x7b', '\x7d']
  else '\x7b' :: '\n' :: (serEntries m ++ ['\n', '\x7d'])

/-- Value of one hexadecimal digit character. -/
def hexVal (c : Char) : Option Nat :=
  if 48 ≤ c.toNat ∧ c.toNat ≤ 57 then some (c.toNat - 48)
  else if 97 ≤ c.toNat ∧ c.toNat ≤ 102 then some (c.toNat - 87)
  else if 65 ≤ c.toNat ∧ c.toNat ≤ 70 then some (c.toNat - 55)
  else none

/-- Skip JSON whitespace. -/
def skipWs : List Char → List Char
  | [] => []
  | c :: rest =>
    if c = ' ' ∨ c = '\n' ∨ c = '\t' ∨ c = '\r' then skipWs rest
    else c :: rest

/-- Prepend a decoded character to a string-parse result. -/
def prependP (c : Char) :
    Option (List Char × List Char) → Option (List Char × List Char)
  | some sr => some (c :: sr.1, sr.2)
  | none => none

/-- Parse the body of a JSON string (the opening quote already
consumed): unescape until the closing quote, returning the decoded
string and the rest of the input.  `fuel` bounds the number of decoded
characters; callers pass the input length plus one, which always
suffices since every step consumes input. -/
def parseJStringAux : Nat → List Char → Option (List Char × List Char)
  | 0, _ => none
  | _ + 1, [] => none
  | fuel + 1, c :: rest =>
    if c = '"' then some ([], rest)
    else if c = '\\' then
      match rest with
      | [] => none
      | e :: rest2 =>
        if e = '"' then prependP '"' (parseJStringAux fuel rest2)
        else if e = '\\' then prependP '\\' (parseJStringAux fuel rest2)
        else if e = 'b' then prependP '\x08' (parseJStringAux fuel rest2)
        else if e = 'f' then prependP '\x0c' (parseJStringAux fuel rest2)
        else if e = 'n' then prependP '\n' (parseJStringAux fuel rest2)
        else if e = 'r' then prependP '\r' (parseJStringAux fuel rest2)
        else if e = 't' then prependP '\t' (parseJStringAux fuel rest2)
        else if e = 'u' then
          match rest2 with
          | h1 :: h2 :: h3 :: h4 :: rest3 =>
            match hexVal h1, hexVal h2, hexVal h3, hexVal h4 with
            | some a, some b, some c2, some d =>
              prependP (Char.ofNat (((a * 16 + b) * 16 + c2) * 16 + d))
                (parseJStringAux fuel rest3)
            | _, _, _, _ => none
          | _ => none
        else none
    else prependP c (parseJStringAux fuel rest)

/-- Parse one `"key": "value"` entry, allowing whitespace before the key
and around the colon. -/
def parseEntry (l : List Char) :
    Option ((List Char × List Char) × List Char) :=
  match skipWs l with
  | '"' :: r1 =>
    match parseJStringAux (r1.length + 1) r1 with
    | some (k, r2) =>
      match skipWs r2 with
      | ':' :: r3 =>
        match skipWs r3 with
        | '"' :: r4 =>
          match parseJStringAux (r4.length + 1) r4 with
          | some (v, r5) => some ((k, v), r5)
          | none => none
        | _ => none
      | _ => none
    | none => none
  | _ => none

/-- Parse a comma-separated entry sequence up to and including the
closing brace.  `fuel` bounds the number of entries; the caller passes
the input length, which always suffices. -/
def parseEntriesAux :
    Nat → List Char → Option (List (List Char × List Char) × List Char)
  | 0, _ => none
  | fuel + 1, l =>
    match parseEntry l with
    | none => none
    | some (kv, r) =>
      match skipWs r with
      | ',' :: r2 =>
        match parseEntriesAux fuel r2 with
        | some (kvs, r3) => some (kv :: kvs, r3)
        | none => none
      | '\x7d' :: r2 => some ([kv], r2)
      | _ => none

/-- Python dict construction from parsed pairs: later duplicate keys
overwrite earlier ones, insertion order is kept. -/
def toDict (kvs : List (List Char × List Char)) :
    List (List Char × List Char) :=
  kvs.foldl (fun m kv => insertA kv.1 kv.2 m) []

/-- Model of `json.load` restricted to a top-level object with string values:
parse the object document and build the dictionary.  Fails on anything
else (`FormatError`) — in particular `none` models a raised
`JSONDecodeError`. -/
def loadMapping (l : List Char) :
    Option (List (List Char × List Char)) :=
  match skipWs l with
  | '\x7b' :: r =>
    match skipWs r with
    | '\x7d' :: r2 => if skipWs r2 = [] then some (toDict []) else none
    | _ =>
      match parseEntriesAux (r.length + 1) r with
      | some (kvs, r2) =>
        if skipWs r2 = [] then some (toDict kvs) else none
      | none => none
  | _ => none

theorem escapeStr_len (s : List Char) :
    s.length ≤ (escapeStr s).length := by
  induction s with
  | nil => simp [escapeStr]
  | cons c cs ih =>
    have h1 : 1 ≤ (escapeChar c).length := by
      unfold escapeChar
      split_ifs <;> simp
    simp only [escapeStr, List.length_append, List.length_cons]
    omega

theorem hexVal_hexDigitChar : ∀ n, n < 16 →
    hexVal (hexDigitChar n) = some n := by decide

theorem skipWs_nil : skipWs [] = [] := rfl

theorem skipWs_space (l : List Char) : skipWs (' ' :: l) = skipWs l := rfl

theorem skipWs_newline (l : List Char) :
    skipWs ('\n' :: l) = skipWs l := rfl

theorem skipWs_quote (l : List Char) : skipWs ('"' :: l) = '"' :: l := rfl

theorem skipWs_colon (l : List Char) : skipWs (':' :: l) = ':' :: l := rfl

theorem skipWs_comma (l : List Char) : skipWs (',' :: l) = ',' :: l := rfl

theorem skipWs_lbrace (l : List Char) :
    skipWs ('\x7b' :: l) = '\x7b' :: l := rfl

theorem skipWs_rbrace (l : List Char) :
    skipWs ('\x7d' :: l) = '\x7d' :: l := rfl

/-- Unescaping inverts escaping: parsing the escaped string followed by
the closing quote recovers the original string, given enough fuel. -/
theorem parseJString_escape (s : List Char) :
    ∀ (fuel : Nat) (r : List Char), s.length + 1 ≤ fuel →
      parseJStringAux fuel (escapeStr s ++ '"' :: r) = some (s, r) := by
  induction s with
  | nil =>
    intro fuel r hf
    obtain ⟨f, rfl⟩ : ∃ f, fuel = f + 1 := ⟨fuel - 1, by omega⟩
    simp [escapeStr, parseJStringAux]
  | cons c cs ih =>
    intro fuel r hf
    obtain ⟨f, rfl⟩ : ∃ f, fuel = f + 1 := ⟨fuel - 1, by omega⟩
    have hcs : cs.length + 1 ≤ f := by
      simp only [List.length_cons] at hf
      omega
    simp only [escapeStr, List.append_assoc]
    by_cases h1 : c = '"'
    · subst h1
      simp [escapeChar, parseJStringAux, prependP, ih f r hcs]
    · by_cases h2 : c = '\\'
      · subst h2
        simp [escapeChar, parseJStringAux, prependP, ih f r hcs]
      · by_cases h3 : c = '\x08'
        · subst h3
          simp [escapeChar, parseJStringAux, prependP, ih f r hcs]
        · by_cases h4 : c = '\x0c'
          · subst h4
            simp [escapeChar, parseJStringAux, prependP, ih f r hcs]
          · by_cases h5 : c = '\n'
            · subst h5
              simp [escapeChar, parseJStringAux, prependP, ih f r hcs]
            · by_cases h6 : c = '\r'
              · subst h6
                simp [escapeChar, parseJStringAux, prependP, ih f r hcs]
              · by_cases h7 : c = '\t'
                · subst h7
                  simp [escapeChar, parseJStringAux, prependP, ih f r hcs]
                · by_cases h8 : c.toNat < 32
                  · rw [show escapeChar c =
                        ['\\', 'u', '0', '0', hexDigitChar (c.toNat / 16),
                          hexDigitChar (c.toNat % 16)] from by
                      simp [escapeChar, h1, h2, h3, h4, h5, h6, h7, h8]]
                    have e0 : hexVal '0' = some 0 := by decide
                    have e1 : hexVal (hexDigitChar (c.toNat / 16)) =
                        some (c.toNat / 16) :=
                      hexVal_hexDigitChar _ (by omega)
                    have e2 : hexVal (hexDigitChar (c.toNat % 16)) =
                        some (c.toNat % 16) :=
                      hexVal_hexDigitChar _ (by omega)
                    simp [parseJStringAux, e0, e1, e2, prependP,
                      ih f r hcs]
                    rw [show c.toNat / 16 * 16 + c.toNat % 16 =
                      c.toNat from by omega]
                    exact Char.ofNat_toNat c
                  · rw [show escapeChar c = [c] from by
                      simp [escapeChar, h1, h2, h3, h4, h5, h6, h7, h8]]
                    simp [parseJStringAux, h1, h2, prependP, ih f r hcs]

theorem parseJString_escape_len (s r : List Char) :
    parseJStringAux ((escapeStr s ++ '"' :: r).length + 1)
      (escapeStr s ++ '"' :: r) = some (s, r) :=
  parseJString_escape s _ r (by
    have := escapeStr_len s
    simp only [List.length_append, List.length_cons]
    omega)

theorem parseEntry_ser (k v : List Char) (tail : List Char) :
    parseEntry (serEntry (k, v) ++ tail) = some ((k, v), tail) := by
  have h1 : serEntry (k, v) ++ tail =
      ' ' :: ' ' :: ' ' :: ' ' :: '"' ::
        (escapeStr k ++ ('"' :: ':' :: ' ' :: '"' ::
          (escapeStr v ++ ('"' :: tail)))) := by
    simp [serEntry]
  rw [h1]
  simp only [parseEntry, skipWs_space, skipWs_quote]
  rw [parseJString_escape_len]
  simp only [skipWs_colon, skipWs_space, skipWs_quote]
  rw [parseJString_escape_len]

theorem parseEntry_ser2 (kv : List Char × List Char) (tail : List Char) :
    parseEntry (serEntry kv ++ tail) = some (kv, tail) := by
  obtain ⟨k, v⟩ := kv
  exact parseEntry_ser k v tail

theorem parseEntry_newline (l : List Char) :
    parseEntry ('\n' :: l) = parseEntry l := by
  simp only [parseEntry, skipWs_newline]

theorem parseEntriesAux_newline (fuel : Nat) (l : List Char) :
    parseEntriesAux fuel ('\n' :: l) = parseEntriesAux fuel l := by
  cases fuel with
  | zero => rfl
  | succ f => simp only [parseEntriesAux, parseEntry_newline]

theorem serEntries_len :
    ∀ m : List (List Char × List Char), m.length ≤ (serEntries m).length := by
  intro m
  induction m with
  | nil => simp [serEntries]
  | cons kv rest ih =>
    cases rest with
    | nil =>
      simp [serEntries, serEntry]
    | cons a b =>
      simp only [serEntries, List.length_append, List.length_cons] at ih ⊢
      omega

theorem parseEntries_ser :
    ∀ (m : List (List Char × List Char)), m ≠ [] →
      ∀ (fuel : Nat) (rest : List Char), m.length ≤ fuel →
        parseEntriesAux fuel (serEntries m ++ '\n' :: '\x7d' :: rest) =
          some (m, rest) := by
  intro m
  induction m with
  | nil => intro h; exact absurd rfl h
  | cons kv m' ih =>
    intro _ fuel rest hf
    obtain ⟨f, rfl⟩ : ∃ f, fuel = f + 1 :=
      ⟨fuel - 1, by simp only [List.length_cons] at hf; omega⟩
    by_cases hm : m' = []
    · subst hm
      simp only [serEntries, parseEntriesAux, parseEntry_ser2,
        skipWs_newline, skipWs_rbrace]
    · have hser : serEntries (kv :: m') ++ '\n' :: '\x7d' :: rest =
          serEntry kv ++ (',' :: '\n' ::
            (serEntries m' ++ '\n' :: '\x7d' :: rest)) := by
        cases m' with
        | nil => exact absurd rfl hm
        | cons a b => simp [serEntries, List.append_assoc]
      rw [hser]
      simp only [parseEntriesAux, parseEntry_ser2, skipWs_comma]
      rw [parseEntriesAux_newline,
        ih hm f rest (by simp only [List.length_cons] at hf; omega)]

theorem toDict_aux (m : List (List Char × List Char)) :
    ∀ acc, (keysA m).Nodup → (∀ k ∈ keysA m, k ∉ keysA acc) →
      m.foldl (fun mm kv => insertA kv.1 kv.2 mm) acc = acc ++ m := by
  induction m with
  | nil => intro acc _ _; simp
  | cons kv m' ih =>
    intro acc hnd hdis
    simp only [List.foldl_cons]
    have h1 : kv.1 ∉ keysA acc := hdis kv.1 (by simp [keysA])
    rw [insertA_of_not_mem_keysA h1]
    have hnd' : (keysA m').Nodup := by
      simp only [keysA, List.map_cons, List.nodup_cons] at hnd
      exact hnd.2
    have hdis' : ∀ k ∈ keysA m', k ∉ keysA (acc ++ [kv]) := by
      intro k hk
      simp only [keysA, List.map_append, List.map_cons, List.map_nil,
        List.mem_append, List.mem_cons, List.not_mem_nil, or_false,
        not_or]
      constructor
      · exact hdis k (by simp [keysA]; right; simpa [keysA] using hk)
      · intro he
        simp only [keysA, List.map_cons, List.nodup_cons] at hnd
        exact hnd.1 (he ▸ hk)
    rw [ih (acc ++ [kv]) hnd' hdis']
    simp

theorem toDict_of_nodup (m : List (List Char × List Char))
    (hnd : (keysA m).Nodup) : toDict m = m := by
  have h := toDict_aux m [] hnd (by simp [keysA])
  simpa [toDict] using h

theorem skipWs_serEntry (kv : List Char × List Char) (l : List Char) :
    skipWs (serEntry kv ++ l) =
      '"' :: (escapeStr kv.1 ++ ('"' :: ':' :: ' ' :: '"' ::
        (escapeStr kv.2 ++ ('"' :: l)))) := by
  simp [serEntry, List.append_assoc, skipWs_space, skipWs_quote]

/-- Claim C2: for every mapping produced by the scanner — a dictionary,
so its keys are unique by construction — writing it with
`json.dump(mapping, f, ensure_ascii=False, indent=4)` and reading it
back with `json.load` yields the same mapping (here literally the same
key-value list, which is stronger than equality as a set of pairs). -/
theorem save_load_round_trip (m : List (List Char × List Char))
    (hnd : (keysA m).Nodup) :
    loadMapping (saveMapping m) = some m := by
  by_cases hm : m = []
  · subst hm; rfl
  · rw [saveMapping, if_neg hm]
    obtain ⟨l2, hl2⟩ : ∃ l2, serEntries m ++ ['\n', '\x7d'] =
        serEntry (m.headI) ++ l2 := by
      cases m with
      | nil => exact absurd rfl hm
      | cons kv m' =>
        cases m' with
        | nil => exact ⟨['\n', '\x7d'], by simp [serEntries]⟩
        | cons a b =>
          exact ⟨(',' :: '\n' :: serEntries (a :: b)) ++ ['\n', '\x7d'],
            by simp [serEntries, List.append_assoc]⟩
    simp only [loadMapping, skipWs_lbrace, skipWs_newline]
    rw [hl2, skipWs_serEntry]
    have hfuel : m.length ≤
        ('\n' :: (serEntries m ++ ['\n', '\x7d'])).length + 1 := by
      have := serEntries_len m
      simp only [List.length_cons, List.length_append]
      omega
    split
    · rename_i r2 heq
      exact absurd heq (by simp)
    · rw [parseEntriesAux_newline, ← hl2,
        parseEntries_ser m hm _ [] hfuel]
      simp [skipWs_nil, toDict_of_nodup m hnd]

/-- Witness for claim C2: a two-entry mapping (fingerprint-like keys,
relative-path values) survives the save/load round trip unchanged. -/
theorem save_load_round_trip_witness :
    loadMapping (saveMapping
      [("9e10".toList, "a/x.txt".toList),
        ("7f2c".toList, "b/y.txt".toList)]) =
    some [("9e10".toList, "a/x.txt".toList),
      ("7f2c".toList, "b/y.txt".toList)] :=
  save_load_round_trip
    [("9e10".toList, "a/x.txt".toList), ("7f2c".toList, "b/y.txt".toList)]
    (by decide)

end FSSync
